import Mathlib

/-!
Verification of the core text-substitution routines of the Godot
documentation translation tool (`src/main.py`).

Python strings are modelled as `List Char`.  Python line boundaries are
modelled as the newline character; the whitespace set recognised by
`str.strip` is modelled by the six ASCII whitespace characters, and the
indentation characters recognised by `textwrap.dedent` are space and tab,
exactly as in CPython's `textwrap` regexes.
-/

/-- Characters treated as whitespace by Python `str.strip()` /
`str.isspace()` (ASCII part). -/
def isPySpace (c : Char) : Bool :=
  c = ' ' || c = '\t' || c = '\n' || c = '\r' || c = '\x0b' || c = '\x0c'

/-- Characters treated as indentation by CPython `textwrap.dedent`
(its regexes use the class of space and tab only). -/
def isIndentChar (c : Char) : Bool :=
  c = ' ' || c = '\t'

/-- Python `s.lstrip()`. -/
def pyLStrip (s : List Char) : List Char :=
  s.dropWhile isPySpace

/-- Python `s.rstrip()`. -/
def pyRStrip (s : List Char) : List Char :=
  (s.reverse.dropWhile isPySpace).reverse

/-- Python `s.strip()`. -/
def pyStrip (s : List Char) : List Char :=
  pyLStrip (pyRStrip s)

/-- Python `s.strip("\n")` : remove newline characters from both ends. -/
def stripNl (s : List Char) : List Char :=
  ((s.dropWhile (fun c => c = '\n')).reverse.dropWhile (fun c => c = '\n')).reverse

/-- Split a string at every newline character, keeping all (possibly empty)
segments, so that `joinNl (splitOnNl s) = s`.  This models Python
`s.split("\n")` and also the line structure seen by CPython's multiline
regexes in `textwrap.dedent`. -/
def splitOnNl : List Char → List (List Char)
  | [] => [[]]
  | c :: cs =>
    if c = '\n' then [] :: splitOnNl cs
    else
      match splitOnNl cs with
      | [] => [[c]]
      | l :: ls => (c :: l) :: ls

/-- Python `"\n".join(segs)`. -/
def joinNl : List (List Char) → List Char
  | [] => []
  | [l] => l
  | l :: l' :: ls => l ++ '\n' :: joinNl (l' :: ls)

/-- Python `s.splitlines()` (modelled with newline-only boundaries):
all newline-separated segments except that the final segment is dropped
when it is empty (Python emits no line for a trailing newline, and no
line at all for the empty string). -/
def splitlines (s : List Char) : List (List Char) :=
  let segs := splitOnNl s
  if segs.getLast? = some [] then segs.dropLast else segs

/-- Python `s.splitlines(keepends=True)` (newline-only boundaries):
like `splitlines` but each line retains its trailing newline. -/
def splitlinesKeepends : List Char → List (List Char)
  | [] => []
  | c :: cs =>
    if c = '\n' then ['\n'] :: splitlinesKeepends cs
    else
      match splitlinesKeepends cs with
      | [] => [[c]]
      | l :: ls => (c :: l) :: ls

/-- CPython `textwrap.dedent` step 1: a line consisting entirely of spaces
and tabs (and nonempty) is replaced by an empty line
(regex `^[ \t]+$` substituted by the empty string). -/
def clearBlankSeg (seg : List Char) : List Char :=
  if !seg.isEmpty && seg.all isIndentChar then [] else seg

/-- CPython `textwrap.dedent` step 2: the leading whitespace of one line,
captured by the regex group in the class of space and tab, present only for
lines that contain some other character. -/
def segIndent? (seg : List Char) : Option (List Char) :=
  if (seg.dropWhile isIndentChar).isEmpty then none
  else some (seg.takeWhile isIndentChar)

/-- Longest common prefix of two strings; one folding step of the margin
computation in CPython `textwrap.dedent`. -/
def lcp : List Char → List Char → List Char
  | c :: cs, d :: ds => if c = d then c :: lcp cs ds else []
  | _, _ => []

/-- The margin (common indentation) CPython `textwrap.dedent` computes from
the per-line indents: the fold of longest-common-prefix over them. -/
def marginOf (indents : List (List Char)) : List Char :=
  match indents with
  | [] => []
  | i :: is => is.foldl lcp i

/-- Remove the margin from the front of a line when it is present
(regex `(?m)^margin` substituted by the empty string). -/
def dropMargin (m : List Char) (l : List Char) : List Char :=
  if m.isPrefixOf l then l.drop m.length else l

/-- The cleared newline-segments of a text: `textwrap.dedent` step 1. -/
def clearedSegs (text : List Char) : List (List Char) :=
  (splitOnNl text).map clearBlankSeg

/-- The margin `textwrap.dedent` computes for a text. -/
def pyMargin (text : List Char) : List Char :=
  marginOf ((clearedSegs text).filterMap segIndent?)

/-- CPython `textwrap.dedent`: clear whitespace-only lines, compute the
common space-and-tab margin of the remaining lines, remove it from the
front of every line. -/
def dedent (text : List Char) : List Char :=
  joinNl ((clearedSegs text).map (dropMargin (pyMargin text)))

/-- CPython `textwrap.indent(text, pre)` with the default predicate: add
the prefix to every line (keeping line endings) whose strip is nonempty. -/
def pyIndent (text : List Char) (pre : List Char) : List Char :=
  ((splitlinesKeepends text).map
    (fun line => if pyStrip line ≠ [] then pre ++ line else line)).flatten

/-- The nonempty lines of a text: `[line for line in text.splitlines() if line.strip()]`
from `extract_common_indentation` (src/main.py line 148). -/
def nonEmptyLines (text : List Char) : List (List Char) :=
  (splitlines text).filter (fun l => pyStrip l ≠ [])

/-- `extract_common_indentation` (src/main.py lines 138-163), with the
possibility of an exception made explicit: the source obtains the first
nonempty dedented line with `next(...)`, which raises `StopIteration`
when no such line exists; that outcome is modelled as `none`. -/
def extract_common_indentation_run (text : List Char) : Option (List Char) :=
  match nonEmptyLines text with
  | [] => some []
  | first_line_with_indent :: _ =>
    match nonEmptyLines (dedent text) with
    | [] => none
    | first_line_dedented :: _ =>
      some (first_line_with_indent.take
        (first_line_with_indent.length - first_line_dedented.length))

/-- `extract_common_indentation` (src/main.py lines 138-163): the common
indentation of a multi-line text, obtained by comparing the first nonempty
line before and after `textwrap.dedent`.  (The slice length
`len(first_line_with_indent) - len(first_line_dedented)` is nonnegative on
every input, so Nat subtraction agrees with the Python slice.) -/
def extract_common_indentation (text : List Char) : List Char :=
  (extract_common_indentation_run text).getD []

/-- A Python dict from strings to strings, as an insertion-ordered
association list with unique keys. -/
abbrev TransMap : Type := List (List Char × List Char)

/-- Python `d[k] = v` on a dict: overwrite in place, or append a new key. -/
def dictInsert : TransMap → List Char → List Char → TransMap
  | [], k, v => [(k, v)]
  | (k', v') :: rest, k, v =>
    if k' = k then (k', v) :: rest else (k', v') :: dictInsert rest k v

/-- Python `k in d` / `d[k]` on a dict. -/
def dictFind? : TransMap → List Char → Option (List Char)
  | [], _ => none
  | (k', v') :: rest, k => if k' = k then some v' else dictFind? rest k

/-- `create_translation_dict` (src/main.py lines 98-114): entries are
`(msgid, msgstr)` pairs; an entry is inserted only when its `msgstr` is
nonempty (truthy). -/
def create_translation_dict (po_entries : List (List Char × List Char)) : TransMap :=
  po_entries.foldl
    (fun translation_map entry =>
      if entry.2 ≠ [] then dictInsert translation_map entry.1 entry.2
      else translation_map)
    []

/-- Python `s.replace(old, new)` with `old` nonempty: replace every
leftmost non-overlapping occurrence.  Fuel-based structural recursion;
fuel `s.length` suffices since every step consumes at least one character.
(The sources never call `replace` with an empty pattern: in `translate_text`
the pattern always contains a non-whitespace character.) -/
def replaceFuel : Nat → List Char → List Char → List Char → List Char
  | 0, s, _, _ => s
  | _ + 1, [], _, _ => []
  | fuel + 1, c :: cs, old, new =>
    if old.isPrefixOf (c :: cs) then
      new ++ replaceFuel fuel (List.drop (old.length - 1) cs) old new
    else
      c :: replaceFuel fuel cs old new

/-- Python `s.replace(old, new)` (for nonempty `old`). -/
def listReplace (s old new : List Char) : List Char :=
  if old = [] then s else replaceFuel s.length s old new

/-- The sentinel placeholder of `translate_text` (src/main.py line 187). -/
def PLACEHOLDER : List Char := "__TRANSLATED_TEXT_PLACEHOLDER__".data

/-- The value `text.strip("\n").rstrip()` computed by `translate_text`
(src/main.py line 186). -/
def strippedTextOf (text : List Char) : List Char :=
  pyRStrip (stripNl text)

/-- `translate_text` (src/main.py lines 166-202).  The guard
`if not text or not text.strip()` is equivalent to the strip being empty,
since an empty string also has an empty strip. -/
def translate_text (text : List Char) (translation_map : TransMap) : List Char :=
  if pyStrip text = [] then text
  else
    match dictFind? translation_map text with
    | some v => v
    | none =>
      let stripped_text := strippedTextOf text
      let text_with_placeholder := listReplace text stripped_text PLACEHOLDER
      let common_indent := extract_common_indentation stripped_text
      let dedented_text := dedent stripped_text
      match dictFind? translation_map dedented_text with
      | some translated =>
        listReplace text_with_placeholder PLACEHOLDER (pyIndent translated common_indent)
      | none => text

/-- `translate_text` with the possible `StopIteration` of the inner
`extract_common_indentation` call made explicit (`none` = exception). -/
def translate_text_run (text : List Char) (translation_map : TransMap) :
    Option (List Char) :=
  if pyStrip text = [] then some text
  else
    match dictFind? translation_map text with
    | some v => some v
    | none =>
      let stripped_text := strippedTextOf text
      let text_with_placeholder := listReplace text stripped_text PLACEHOLDER
      match extract_common_indentation_run stripped_text with
      | none => none
      | some common_indent =>
        match dictFind? translation_map (dedent stripped_text) with
        | some translated =>
          some (listReplace text_with_placeholder PLACEHOLDER
            (pyIndent translated common_indent))
        | none => some text

/-- The allow-list `TRANSLATABLE_XML_TAGS` (src/main.py line 15). -/
def TRANSLATABLE_XML_TAGS : List (List Char) :=
  ["brief_description".data, "description".data, "member".data, "constant".data]

/-- An `xml.etree.ElementTree` element: tag, direct text (possibly absent),
attributes, ordered children, tail text (possibly absent). -/
inductive Element : Type where
  | mk (tag : List Char) (text : Option (List Char))
       (attrib : List (List Char × List Char))
       (children : List Element) (tail : Option (List Char)) : Element

def Element.tagOf : Element → List Char
  | .mk tag _ _ _ _ => tag

def Element.textOf : Element → Option (List Char)
  | .mk _ text _ _ _ => text

def Element.attribOf : Element → List (List Char × List Char)
  | .mk _ _ attrib _ _ => attrib

def Element.childrenOf : Element → List Element
  | .mk _ _ _ children _ => children

def Element.tailOf : Element → Option (List Char)
  | .mk _ _ _ _ tail => tail

mutual

/-- `translate_xml_element` (src/main.py lines 205-219): if the element's
tag is in the allow-list and its direct text is truthy (present and
nonempty), replace the text by its translation; then recurse into every
child in document order.  The Python function mutates in place; it is
modelled as returning the updated tree. -/
def translate_xml_element (translation_map : TransMap) : Element → Element
  | .mk tag text attrib children tail =>
    let text' :=
      match text with
      | some t =>
        if tag ∈ TRANSLATABLE_XML_TAGS ∧ t ≠ [] then
          some (translate_text t translation_map)
        else some t
      | none => none
    .mk tag text' attrib (translateChildren translation_map children) tail

/-- The `for child in element` recursion of `translate_xml_element`. -/
def translateChildren (translation_map : TransMap) : List Element → List Element
  | [] => []
  | e :: es =>
    translate_xml_element translation_map e :: translateChildren translation_map es

end

/-- Navigate an element tree by a path of child indices. -/
def getAt : List Nat → Element → Option Element
  | [], e => some e
  | i :: p, e =>
    match e.childrenOf[i]? with
    | some c => getAt p c
    | none => none

mutual

/-- Frame relation between an element tree and its rewrite: tag, attributes
and tail are unchanged, the children correspond pointwise (same count, same
order), and the direct text of an element whose tag is outside the
allow-list is unchanged. -/
inductive SameFrame : Element → Element → Prop where
  | mk : ∀ (tag : List Char) (text text' : Option (List Char))
      (attrib : List (List Char × List Char))
      (children children' : List Element) (tail : Option (List Char)),
      SameFrameList children children' →
      (tag ∉ TRANSLATABLE_XML_TAGS → text' = text) →
      SameFrame (.mk tag text attrib children tail)
        (.mk tag text' attrib children' tail)

inductive SameFrameList : List Element → List Element → Prop where
  | nil : SameFrameList [] []
  | cons : ∀ e e' es es', SameFrame e e' → SameFrameList es es' →
      SameFrameList (e :: es) (e' :: es')

end

/-- The value at a key after `create_translation_dict`, restated from the
iteration order: the translation of the last pair for that key whose
translation is nonempty. -/
def lastNonEmptyTranslation (po_entries : List (List Char × List Char))
    (s : List Char) : Option (List Char) :=
  po_entries.foldl
    (fun acc entry => if entry.1 = s ∧ entry.2 ≠ [] then some entry.2 else acc)
    none

/-- The spec's restatement of the fallback path of `translate_text`
(spec.md design note on string-based sentinel substitution): slice the
text into the leading-newline run, the stripped core and the trailing
whitespace, and reassemble by concatenation around the re-indented
translation, with no substring search-and-replace.  The early paths
(whitespace-only text, verbatim key) are those of `translate_text`. -/
def translate_text_sliced (text : List Char) (translation_map : TransMap) : List Char :=
  if pyStrip text = [] then text
  else
    match dictFind? translation_map text with
    | some v => v
    | none =>
      let nl_run := text.takeWhile (fun c => c = '\n')
      let rest := text.dropWhile (fun c => c = '\n')
      let core := pyRStrip rest
      let ws_suffix := rest.drop core.length
      match dictFind? translation_map (dedent core) with
      | some translated =>
        nl_run ++ pyIndent translated (extract_common_indentation core) ++ ws_suffix
      | none => text

theorem dictFind?_dictInsert (m : TransMap) (k v s : List Char) :
    dictFind? (dictInsert m k v) s = if k = s then some v else dictFind? m s := by
  induction m with
  | nil =>
    by_cases h : k = s <;> simp [dictInsert, dictFind?, h]
  | cons kv rest ih =>
    obtain ⟨k', v'⟩ := kv
    by_cases hk : k' = k
    · subst hk
      by_cases hs : k' = s <;> simp [dictInsert, dictFind?, hs]
    · by_cases hs : k' = s
      · have hks : ¬ (k = s) := fun h => hk (hs.trans h.symm)
        have hsk : s ≠ k := fun h => hks h.symm
        simp [dictInsert, dictFind?, hk, hs, hks, hsk]
      · simp [dictInsert, dictFind?, hk, hs, ih]

theorem dictFind?_foldl_insert (entries : List (List Char × List Char))
    (m : TransMap) (s : List Char) :
    dictFind? (entries.foldl
      (fun translation_map entry =>
        if entry.2 ≠ [] then dictInsert translation_map entry.1 entry.2
        else translation_map) m) s
      = entries.foldl
          (fun acc entry =>
            if entry.1 = s ∧ entry.2 ≠ [] then some entry.2 else acc)
          (dictFind? m s) := by
  induction entries generalizing m with
  | nil => rfl
  | cons e es ih =>
    obtain ⟨k, v⟩ := e
    simp only [List.foldl_cons]
    rw [ih]
    congr 1
    by_cases hv : v = []
    · simp [hv]
    · rw [if_pos hv, dictFind?_dictInsert]
      by_cases hk : k = s
      · simp [hk, hv]
      · simp [hk, hv]

/-- C1 counterexample: after building the map from
`[("a","x"), ("a",""), ("b","y")]`, the key `"a"` is still present
(the empty-translation pair is skipped, it does not delete the earlier
entry), contradicting the claim that the final map is `{"b": "y"}` with
no entry for `"a"`. -/
theorem create_translation_dict_keeps_earlier_entry :
    dictFind? (create_translation_dict
      [("a".data, "x".data), ("a".data, []), ("b".data, "y".data)]) "a".data
      ≠ none := by decide

/-- C1 (amended): `create_translation_dict` applied to
`[("a","x"), ("a",""), ("b","y")]` yields exactly the map
`{"a": "x", "b": "y"}`: the second pair for key `"a"` is skipped because
its translation is empty, leaving the earlier `("a","x")` entry in place,
and `("b","y")` is inserted. -/
theorem create_translation_dict_example :
    create_translation_dict
      [("a".data, "x".data), ("a".data, []), ("b".data, "y".data)]
      = [("a".data, "x".data), ("b".data, "y".data)] := by decide

/-- C5: `create_translation_dict` maps `s` to exactly the translation of
the last pair with source `s` and nonempty translation
(`lastNonEmptyTranslation`); a pair with empty translation leaves the map
unchanged at its step; and `[("a","x"),("a","z")]` yields `{"a":"z"}`. -/
theorem create_translation_dict_spec (entries : List (List Char × List Char))
    (s : List Char) (e : List Char × List Char) (he : e.2 = []) :
    dictFind? (create_translation_dict entries) s = lastNonEmptyTranslation entries s ∧
    create_translation_dict (entries ++ [e]) = create_translation_dict entries ∧
    create_translation_dict [("a".data, "x".data), ("a".data, "z".data)]
      = [("a".data, "z".data)] := by
  refine ⟨?_, ?_, by decide⟩
  · exact dictFind?_foldl_insert entries [] s
  · unfold create_translation_dict
    rw [List.foldl_append]
    simp [he]

theorem create_translation_dict_spec_witness :
    (("b".data, ([] : List Char)).2 = []) ∧
    (dictFind? (create_translation_dict [("a".data, "x".data)]) "a".data
        = lastNonEmptyTranslation [("a".data, "x".data)] "a".data ∧
      create_translation_dict ([("a".data, "x".data)] ++ [("b".data, [])])
        = create_translation_dict [("a".data, "x".data)] ∧
      create_translation_dict [("a".data, "x".data), ("a".data, "z".data)]
        = [("a".data, "z".data)]) :=
  ⟨by decide, create_translation_dict_spec [("a".data, "x".data)] "a".data
    ("b".data, []) rfl⟩

/-- C3: `translate_text` applied to the text consisting of a newline, four
spaces, `Hello world.`, a newline and four spaces, with the map sending
`Hello world.` to `Bonjour le monde.`, returns the text with the core
replaced and the surrounding newline, indentation and trailing whitespace
preserved. -/
theorem translate_text_hello_world :
    translate_text "\n    Hello world.\n    ".data
      [("Hello world.".data, "Bonjour le monde.".data)]
      = "\n    Bonjour le monde.\n    ".data := by decide

/-- C10: whenever the text is present verbatim as a key of the map and is
not whitespace-only, `translate_text` returns the stored value exactly,
with no whitespace adjustment (the fallback path is not taken). -/
theorem translate_text_exact_match (text : List Char) (translation_map : TransMap)
    (v : List Char) (hne : pyStrip text ≠ [])
    (hfind : dictFind? translation_map text = some v) :
    translate_text text translation_map = v := by
  unfold translate_text
  rw [if_neg hne, hfind]

theorem translate_text_exact_match_witness :
    pyStrip " a ".data ≠ [] ∧
    dictFind? [(" a ".data, " b".data)] " a ".data = some " b".data ∧
    translate_text " a ".data [(" a ".data, " b".data)] = " b".data :=
  ⟨by decide, by decide,
    translate_text_exact_match " a ".data [(" a ".data, " b".data)] " b".data
      (by decide) (by decide)⟩

/-- C6 counterexample: for `text = "\na"` and the map `{"\na": "X"}`, the
dedented stripped core `"a"` is absent from the map, yet `translate_text`
returns `"X"` (the verbatim-key path fires), not `text`: absence of the
dedented core alone does not guarantee the round-trip. -/
theorem translate_text_miss_counterexample :
    dictFind? [("\na".data, "X".data)] (dedent (strippedTextOf "\na".data)) = none ∧
    translate_text "\na".data [("\na".data, "X".data)] ≠ "\na".data := by
  exact ⟨by decide, by decide⟩

/-- C6 (amended): for every text that is absent from the map both verbatim
and as its dedented stripped core, `translate_text` returns the text
exactly, byte for byte (a lookup miss never blanks or alters the input). -/
theorem translate_text_miss (text : List Char) (translation_map : TransMap)
    (h1 : dictFind? translation_map text = none)
    (h2 : dictFind? translation_map (dedent (strippedTextOf text)) = none) :
    translate_text text translation_map = text := by
  unfold translate_text
  by_cases hs : pyStrip text = []
  · rw [if_pos hs]
  · rw [if_neg hs, h1]
    simp only [h2]

theorem translate_text_miss_witness :
    dictFind? [("qq".data, "w".data)] " a".data = none ∧
    dictFind? [("qq".data, "w".data)] (dedent (strippedTextOf " a".data)) = none ∧
    translate_text " a".data [("qq".data, "w".data)] = " a".data :=
  ⟨by decide, by decide,
    translate_text_miss " a".data [("qq".data, "w".data)] (by decide) (by decide)⟩

mutual

theorem translate_keeps_frame (translation_map : TransMap) :
    ∀ e, SameFrame e (translate_xml_element translation_map e)
  | .mk tag text attrib children tail =>
    SameFrame.mk tag text _ attrib children _ tail
      (translateChildren_keeps_frame translation_map children)
      (fun hnot => by
        cases text with
        | none => rfl
        | some t => exact if_neg (fun hc => hnot hc.1))

theorem translateChildren_keeps_frame (translation_map : TransMap) :
    ∀ es, SameFrameList es (translateChildren translation_map es)
  | [] => SameFrameList.nil
  | e :: es =>
    SameFrameList.cons e _ es _
      (translate_keeps_frame translation_map e)
      (translateChildren_keeps_frame translation_map es)

end

/-- C7: for every element tree and map, the rewrite changes at most the
direct text of elements whose tag is in the allow-list: every element's
tag, attributes, tail, child count and child ordering are unchanged, and
the direct text of an element whose tag is outside the allow-list is
unchanged (all encoded by the `SameFrame` relation). -/
theorem translate_xml_element_frame (translation_map : TransMap) (e : Element) :
    SameFrame e (translate_xml_element translation_map e) :=
  translate_keeps_frame translation_map e

theorem translateChildren_eq_map (translation_map : TransMap) :
    ∀ es, translateChildren translation_map es
      = es.map (translate_xml_element translation_map)
  | [] => rfl
  | e :: es =>
    congrArg (translate_xml_element translation_map e :: ·)
      (translateChildren_eq_map translation_map es)

theorem getAt_translate (translation_map : TransMap) :
    ∀ (p : List Nat) (e : Element),
      getAt p (translate_xml_element translation_map e)
        = (getAt p e).map (translate_xml_element translation_map)
  | [], _ => rfl
  | i :: p, e => by
    obtain ⟨tag, text, attrib, children, tail⟩ := e
    have hch : (translate_xml_element translation_map
        (Element.mk tag text attrib children tail)).childrenOf
        = children.map (translate_xml_element translation_map) :=
      translateChildren_eq_map translation_map children
    simp only [getAt]
    rw [hch, List.getElem?_map]
    simp only [Element.childrenOf]
    cases hc : children[i]? with
    | none => rfl
    | some c =>
      simp only [Option.map_some']
      exact getAt_translate translation_map p c

/-- C8: the walker reaches every descendant along any path of child
indices, regardless of the tags along the way: if the element at path `p`
has an allow-listed tag and nonempty direct text `t`, then in the rewritten
tree the element at path `p` has text `translate_text t translation_map`. -/
theorem translate_xml_element_descendant (translation_map : TransMap)
    (e : Element) (p : List Nat) (tag t : List Char)
    (attrib : List (List Char × List Char)) (children : List Element)
    (tail : Option (List Char))
    (hget : getAt p e = some (.mk tag (some t) attrib children tail))
    (htag : tag ∈ TRANSLATABLE_XML_TAGS) (ht : t ≠ []) :
    ∃ e', getAt p (translate_xml_element translation_map e) = some e' ∧
      e'.textOf = some (translate_text t translation_map) := by
  refine ⟨translate_xml_element translation_map
    (.mk tag (some t) attrib children tail), ?_, ?_⟩
  · rw [getAt_translate, hget]
    rfl
  · show (if tag ∈ TRANSLATABLE_XML_TAGS ∧ t ≠ [] then
        some (translate_text t translation_map) else some t)
      = some (translate_text t translation_map)
    exact if_pos ⟨htag, ht⟩

theorem translate_xml_element_descendant_witness :
    ∃ e', getAt [0] (translate_xml_element [("a".data, "b".data)]
        (.mk "class".data none []
          [.mk "description".data (some "a".data) [] [] none] none)) = some e' ∧
      e'.textOf = some (translate_text "a".data [("a".data, "b".data)]) :=
  translate_xml_element_descendant [("a".data, "b".data)]
    (.mk "class".data none [] [.mk "description".data (some "a".data) [] [] none] none)
    [0] "description".data "a".data [] [] none rfl (by decide) (by decide)

theorem splitOnNl_ne_nil (s : List Char) : splitOnNl s ≠ [] := by
  cases s with
  | nil => simp [splitOnNl]
  | cons c cs =>
    simp only [splitOnNl]
    split
    · simp
    · cases splitOnNl cs <;> simp

theorem isIndentChar_isPySpace {c : Char} (h : isIndentChar c = true) :
    isPySpace c = true := by
  rcases (by simpa [isIndentChar] using h : c = ' ' ∨ c = '\t') with h | h <;>
    simp [isPySpace, h]

theorem pyStrip_eq_nil (s : List Char) :
    pyStrip s = [] ↔ ∀ c ∈ s, isPySpace c = true := by
  unfold pyStrip pyLStrip pyRStrip
  rw [List.dropWhile_eq_nil_iff]
  constructor
  · intro h c hc
    have hsplit := List.takeWhile_append_dropWhile isPySpace s.reverse
    have hc' : c ∈ s.reverse := List.mem_reverse.mpr hc
    rw [← hsplit] at hc'
    rcases List.mem_append.mp hc' with h1 | h1
    · exact List.mem_takeWhile_imp h1
    · exact h c (List.mem_reverse.mpr h1)
  · intro h c hc
    have : c ∈ s.reverse.dropWhile isPySpace := List.mem_reverse.mp hc
    have : c ∈ s.reverse := (List.dropWhile_sublist isPySpace).subset this
    exact h c (List.mem_reverse.mp this)

theorem splitOnNl_no_nl {s : List Char} (h : '\n' ∉ s) : splitOnNl s = [s] := by
  induction s with
  | nil => rfl
  | cons c cs ih =>
    have hc : ¬ (c = '\n') := fun hh => h (hh ▸ List.mem_cons_self c cs)
    have hcs : '\n' ∉ cs := fun hh => h (List.mem_cons_of_mem c hh)
    simp [splitOnNl, hc, ih hcs]

theorem splitOnNl_append_nl {s : List Char} (rest : List Char) (h : '\n' ∉ s) :
    splitOnNl (s ++ '\n' :: rest) = s :: splitOnNl rest := by
  induction s with
  | nil => simp [splitOnNl]
  | cons c cs ih =>
    have hc : ¬ (c = '\n') := fun hh => h (hh ▸ List.mem_cons_self c cs)
    have hcs : '\n' ∉ cs := fun hh => h (List.mem_cons_of_mem c hh)
    simp [splitOnNl, hc, ih hcs]

theorem splitOnNl_joinNl :
    ∀ (segs : List (List Char)), segs ≠ [] → (∀ l ∈ segs, '\n' ∉ l) →
      splitOnNl (joinNl segs) = segs
  | [], h, _ => absurd rfl h
  | [s], _, hnl => by
    rw [joinNl, splitOnNl_no_nl (hnl s (by simp))]
  | s :: s' :: ss, _, hnl => by
    rw [joinNl, splitOnNl_append_nl _ (hnl s (by simp)),
      splitOnNl_joinNl (s' :: ss) (by simp) (fun l hl => hnl l (by simp [hl]))]

theorem splitOnNl_mem_no_nl : ∀ (s : List Char), ∀ l ∈ splitOnNl s, '\n' ∉ l
  | [], l, hl => by
    simp [splitOnNl] at hl
    simp [hl]
  | c :: cs, l, hl => by
    by_cases hc : c = '\n'
    · rw [splitOnNl, if_pos hc] at hl
      rcases List.mem_cons.mp hl with h | h
      · simp [h]
      · exact splitOnNl_mem_no_nl cs l h
    · rw [splitOnNl, if_neg hc] at hl
      cases hsp : splitOnNl cs with
      | nil => exact absurd hsp (splitOnNl_ne_nil cs)
      | cons l0 ls =>
        rw [hsp] at hl
        rcases List.mem_cons.mp hl with h | h
        · subst h
          intro hmem
          rcases List.mem_cons.mp hmem with h' | h'
          · exact hc h'.symm
          · exact splitOnNl_mem_no_nl cs l0 (hsp ▸ List.mem_cons_self l0 ls) h'
        · exact splitOnNl_mem_no_nl cs l (hsp ▸ List.mem_cons_of_mem l0 h)

theorem filter_splitlines (s : List Char) (q : List Char → Bool) (hq : q [] = false) :
    (splitlines s).filter q = (splitOnNl s).filter q := by
  unfold splitlines
  by_cases h : (splitOnNl s).getLast? = some []
  · obtain ⟨ys, hys⟩ := List.getLast?_eq_some_iff.mp h
    rw [if_pos h, hys, List.dropLast_concat, List.filter_append]
    simp [hq]
  · rw [if_neg h]

theorem filter_map_comm (f : List Char → List Char) (q : List Char → Bool) :
    ∀ (L : List (List Char)), (∀ x ∈ L, q (f x) = q x) →
      (L.map f).filter q = (L.filter q).map f := by
  intro L
  induction L with
  | nil => intro _; rfl
  | cons x xs ih =>
    intro h
    have hx := h x (List.mem_cons_self x xs)
    have hxs := ih (fun y hy => h y (List.mem_cons_of_mem x hy))
    cases hqx : q x with
    | true => simp [List.filter_cons, hqx, hx ▸ hqx, hxs, hx]
    | false => simp [List.filter_cons, hqx, hxs, hx]

theorem clearBlankSeg_of_nonblank {x : List Char} (h : pyStrip x ≠ []) :
    clearBlankSeg x = x := by
  unfold clearBlankSeg
  rw [if_neg]
  intro hcond
  simp only [Bool.and_eq_true] at hcond
  exact h ((pyStrip_eq_nil x).mpr
    (fun c hc => isIndentChar_isPySpace (List.all_eq_true.mp hcond.2 c hc)))

theorem exists_nonws (x : List Char) (h : pyStrip x ≠ []) :
    ∃ c ∈ x, ¬ (isPySpace c = true) := by
  by_contra hno
  push_neg at hno
  exact h ((pyStrip_eq_nil x).mpr hno)

theorem nonblank_clearBlankSeg (x : List Char) :
    decide (pyStrip (clearBlankSeg x) ≠ []) = decide (pyStrip x ≠ []) := by
  by_cases hb : pyStrip x = []
  · have : pyStrip (clearBlankSeg x) = [] := by
      unfold clearBlankSeg
      split
      · rfl
      · exact hb
    simp [hb, this]
  · rw [clearBlankSeg_of_nonblank hb]

theorem filter_clearedSegs (text : List Char) :
    (clearedSegs text).filter (fun l => pyStrip l ≠ [])
      = (splitOnNl text).filter (fun l => pyStrip l ≠ []) := by
  unfold clearedSegs
  rw [filter_map_comm clearBlankSeg _ (splitOnNl text)
    (fun x _ => nonblank_clearBlankSeg x)]
  have : ∀ x ∈ (splitOnNl text).filter (fun l => pyStrip l ≠ []),
      clearBlankSeg x = x := by
    intro x hx
    have := List.mem_filter.mp hx
    exact clearBlankSeg_of_nonblank (by simpa using this.2)
  rw [List.map_congr_left this]
  simp

theorem lcp_pref_left : ∀ (a b : List Char), List.IsPrefix (lcp a b) a
  | [], _ => List.nil_prefix
  | _ :: _, [] => List.nil_prefix
  | c :: cs, d :: ds => by
    by_cases h : c = d
    · simp only [lcp, if_pos h]
      obtain ⟨t, ht⟩ := lcp_pref_left cs ds
      exact ⟨t, by rw [List.cons_append, ht]⟩
    · simp only [lcp, if_neg h]
      exact List.nil_prefix

theorem lcp_pref_right : ∀ (a b : List Char), List.IsPrefix (lcp a b) b
  | [], _ => List.nil_prefix
  | _ :: _, [] => List.nil_prefix
  | c :: cs, d :: ds => by
    by_cases h : c = d
    · simp only [lcp, if_pos h]
      obtain ⟨t, ht⟩ := lcp_pref_right cs ds
      exact ⟨t, by rw [List.cons_append, ht, h]⟩
    · simp only [lcp, if_neg h]
      exact List.nil_prefix

theorem foldl_lcp_pref_init :
    ∀ (is : List (List Char)) (acc : List Char),
      List.IsPrefix (is.foldl lcp acc) acc
  | [], acc => List.prefix_refl acc
  | j :: is, acc =>
    (foldl_lcp_pref_init is (lcp acc j)).trans (lcp_pref_left acc j)

theorem foldl_lcp_pref_mem :
    ∀ (is : List (List Char)) (acc j : List Char), j ∈ is →
      List.IsPrefix (is.foldl lcp acc) j
  | [], _, _, h => absurd h (List.not_mem_nil _)
  | j' :: is, acc, j, h => by
    rcases List.mem_cons.mp h with h' | h'
    · subst h'
      exact (foldl_lcp_pref_init is (lcp acc j)).trans (lcp_pref_right acc j)
    · exact foldl_lcp_pref_mem is (lcp acc j') j h'

theorem marginOf_pref (indents : List (List Char)) (i : List Char)
    (h : i ∈ indents) : List.IsPrefix (marginOf indents) i := by
  cases indents with
  | nil => exact absurd h (List.not_mem_nil _)
  | cons i0 is =>
    rcases List.mem_cons.mp h with h' | h'
    · subst h'
      exact foldl_lcp_pref_init is i
    · exact foldl_lcp_pref_mem is i0 i h'

theorem segIndent?_of_nonblank {x : List Char} (h : pyStrip x ≠ []) :
    segIndent? x = some (x.takeWhile isIndentChar) := by
  unfold segIndent?
  rw [if_neg]
  intro hcond
  have hnil : x.dropWhile isIndentChar = [] := by
    simpa [List.isEmpty_iff] using hcond
  have hall := List.dropWhile_eq_nil_iff.mp hnil
  exact h ((pyStrip_eq_nil x).mpr
    (fun c hc => isIndentChar_isPySpace (hall c hc)))

theorem pyMargin_pref {text x : List Char} (hx : x ∈ clearedSegs text)
    (hnb : pyStrip x ≠ []) :
    List.IsPrefix (pyMargin text) x ∧
      ∀ c ∈ pyMargin text, isIndentChar c = true := by
  have hsi : segIndent? x = some (x.takeWhile isIndentChar) :=
    segIndent?_of_nonblank hnb
  have hmem : x.takeWhile isIndentChar ∈ (clearedSegs text).filterMap segIndent? :=
    List.mem_filterMap.mpr ⟨x, hx, hsi⟩
  have hpre : List.IsPrefix (pyMargin text) (x.takeWhile isIndentChar) :=
    marginOf_pref _ _ hmem
  refine ⟨hpre.trans ( List.takeWhile_prefix _), fun c hc => ?_⟩
  exact List.mem_takeWhile_imp (hpre.sublist.subset hc)

theorem dropMargin_of_pref {m x : List Char} (h : List.IsPrefix m x) :
    dropMargin m x = x.drop m.length := by
  unfold dropMargin
  rw [if_pos ( List.isPrefixOf_iff_prefix.mpr h)]

theorem nonblank_dropMargin (text : List Char) :
    ∀ x ∈ clearedSegs text,
      decide (pyStrip (dropMargin (pyMargin text) x) ≠ [])
        = decide (pyStrip x ≠ []) := by
  intro x hx
  by_cases hb : pyStrip x = []
  · have hall := (pyStrip_eq_nil x).mp hb
    have : pyStrip (dropMargin (pyMargin text) x) = [] := by
      unfold dropMargin
      split
      · exact (pyStrip_eq_nil _).mpr
          (fun c hc => hall c (List.drop_subset _ _ hc))
      · exact hb
    simp [hb, this]
  · obtain ⟨hpre, hchars⟩ := pyMargin_pref hx hb
    rw [dropMargin_of_pref hpre]
    obtain ⟨c, hcx, hcws⟩ := exists_nonws x hb
    obtain ⟨t, ht⟩ := hpre
    have hdrop : x.drop (pyMargin text).length = t := by
      rw [← ht]
      exact List.drop_left _ _
    have hct : c ∈ t := by
      rw [← ht] at hcx
      rcases List.mem_append.mp hcx with hcm | hcm
      · exact absurd (isIndentChar_isPySpace (hchars c hcm)) hcws
      · exact hcm
    have hnbt : pyStrip t ≠ [] :=
      fun hnil => hcws ((pyStrip_eq_nil t).mp hnil c hct)
    simp [hdrop, hb, hnbt]

theorem clearedSegs_ne_nil (text : List Char) : clearedSegs text ≠ [] := by
  unfold clearedSegs
  simp [splitOnNl_ne_nil text]

theorem clearedSegs_mem_no_nl (text : List Char) :
    ∀ l ∈ clearedSegs text, '\n' ∉ l := by
  intro l hl
  obtain ⟨y, hy, hcl⟩ := List.mem_map.mp hl
  subst hcl
  unfold clearBlankSeg
  split
  · simp
  · exact splitOnNl_mem_no_nl text y hy

theorem splitOnNl_dedent (text : List Char) :
    splitOnNl (dedent text)
      = (clearedSegs text).map (dropMargin (pyMargin text)) := by
  unfold dedent
  apply splitOnNl_joinNl
  · simp [clearedSegs_ne_nil text]
  · intro l hl
    obtain ⟨y, hy, hd⟩ := List.mem_map.mp hl
    subst hd
    have hyn := clearedSegs_mem_no_nl text y hy
    unfold dropMargin
    split
    · intro hmem
      exact hyn (List.drop_subset _ _ hmem)
    · exact hyn

theorem nonEmptyLines_eq_filter (text : List Char) :
    nonEmptyLines text = (splitOnNl text).filter (fun l => pyStrip l ≠ []) := by
  unfold nonEmptyLines
  exact filter_splitlines text _ (by decide)

theorem nonEmptyLines_dedent (text : List Char) :
    nonEmptyLines (dedent text)
      = (nonEmptyLines text).map (dropMargin (pyMargin text)) := by
  rw [nonEmptyLines_eq_filter, splitOnNl_dedent,
    filter_map_comm _ _ _ (nonblank_dropMargin text), filter_clearedSegs,
    ← nonEmptyLines_eq_filter]

theorem extract_common_indentation_eq_margin (text : List Char)
    (h : nonEmptyLines text ≠ []) :
    extract_common_indentation_run text = some (pyMargin text) := by
  obtain ⟨f, rest, hfr⟩ : ∃ f rest, nonEmptyLines text = f :: rest := by
    cases hne : nonEmptyLines text with
    | nil => exact absurd hne h
    | cons f rest => exact ⟨f, rest, rfl⟩
  have hded : nonEmptyLines (dedent text)
      = dropMargin (pyMargin text) f :: rest.map (dropMargin (pyMargin text)) := by
    rw [nonEmptyLines_dedent, hfr, List.map_cons]
  have hfmem : f ∈ (clearedSegs text).filter (fun l => pyStrip l ≠ []) := by
    rw [filter_clearedSegs, ← nonEmptyLines_eq_filter, hfr]
    exact List.mem_cons_self _ _
  have hf := List.mem_filter.mp hfmem
  have hfnb : pyStrip f ≠ [] := by simpa using hf.2
  obtain ⟨hpre, -⟩ := pyMargin_pref hf.1 hfnb
  have hlen : (pyMargin text).length ≤ f.length := hpre.length_le
  have hdm : dropMargin (pyMargin text) f = f.drop (pyMargin text).length :=
    dropMargin_of_pref hpre
  simp only [extract_common_indentation_run, hfr, hded, hdm, List.length_drop]
  have harith : f.length - (f.length - (pyMargin text).length)
      = (pyMargin text).length := by omega
  rw [harith]
  exact congrArg some ( List.prefix_iff_eq_take.mp hpre).symm

theorem extract_common_indentation_no_exception (text : List Char) :
    extract_common_indentation_run text
      = some (extract_common_indentation text) := by
  by_cases h : nonEmptyLines text = []
  · simp [extract_common_indentation, extract_common_indentation_run, h]
  · have hm := extract_common_indentation_eq_margin text h
    rw [extract_common_indentation, hm]
    rfl

theorem translate_text_no_exception (text : List Char) (translation_map : TransMap) :
    translate_text_run text translation_map
      = some (translate_text text translation_map) := by
  by_cases hs : pyStrip text = [] <;>
    cases hf : dictFind? translation_map text <;>
      cases hd : dictFind? translation_map (dedent (strippedTextOf text)) <;>
        simp [translate_text, translate_text_run, hs, hf, hd,
          extract_common_indentation_no_exception]

/-- C9: `extract_common_indentation` and `translate_text` are total: the
run models (which make the sole possible exception, the `StopIteration` of
the inner `next`, explicit as `none`) always return `some` of the value of
the plain models; in particular `extract_common_indentation` returns the
empty string when no nonempty line exists. -/
theorem totality_of_core (text : List Char) (translation_map : TransMap) :
    extract_common_indentation_run text
        = some (extract_common_indentation text) ∧
    translate_text_run text translation_map
        = some (translate_text text translation_map) ∧
    (nonEmptyLines text = [] → extract_common_indentation text = []) := by
  refine ⟨extract_common_indentation_no_exception text,
    translate_text_no_exception text translation_map, ?_⟩
  intro h
  simp [extract_common_indentation, extract_common_indentation_run, h]

theorem totality_of_core_witness :
    extract_common_indentation "  \n\t ".data = [] ∧
    translate_text_run "  \n\t ".data []
      = some (translate_text "  \n\t ".data []) :=
  ⟨(totality_of_core "  \n\t ".data []).2.2 (by decide),
    (totality_of_core "  \n\t ".data []).2.1⟩

/-- C2 counterexample: the single-line input of two spaces and `a` contains
no newline, yet `extract_common_indentation` returns its two-space leading
whitespace, not the empty string. -/
theorem extract_common_indentation_single_line_counterexample :
    ('\n' ∉ "  a".data) ∧ extract_common_indentation "  a".data ≠ [] :=
  ⟨by decide, by decide⟩

/-- C2 (amended): `extract_common_indentation` returns the empty string
exactly on inputs whose nonblank lines share no common leading
space-or-tab margin — so for single-line inputs whose line starts with a
non-indentation character, and for multi-line inputs whose non-blank lines
share no common leading whitespace; a single-line input with leading
whitespace instead yields that leading run. -/
theorem extract_common_indentation_no_margin (text : List Char)
    (h : pyMargin text = []) : extract_common_indentation text = [] := by
  by_cases hne : nonEmptyLines text = []
  · simp [extract_common_indentation, extract_common_indentation_run, hne]
  · have hm := extract_common_indentation_eq_margin text hne
    rw [extract_common_indentation, hm, h]
    rfl

theorem extract_common_indentation_no_margin_witness :
    pyMargin "a\n  b".data = [] ∧
    extract_common_indentation "a\n  b".data = [] :=
  ⟨by decide, extract_common_indentation_no_margin "a\n  b".data (by decide)⟩

theorem replaceFuel_fuel_irrel :
    ∀ (f1 f2 : Nat) (s old new : List Char), s.length ≤ f1 → s.length ≤ f2 →
      replaceFuel f1 s old new = replaceFuel f2 s old new
  | 0, f2, s, old, new, h1, _ => by
    have hs : s = [] := List.length_eq_zero.mp (Nat.le_zero.mp h1)
    subst hs
    cases f2 <;> rfl
  | _ + 1, f2, [], old, new, _, _ => by
    cases f2 <;> rfl
  | f1 + 1, f2, c :: cs, old, new, h1, h2 => by
    cases f2 with
    | zero => exact absurd h2 (by simp)
    | succ f2' =>
      simp only [List.length_cons, Nat.add_le_add_iff_right] at h1 h2
      simp only [replaceFuel]
      split
      · have hlen : (List.drop (old.length - 1) cs).length ≤ cs.length := by
          rw [List.length_drop]
          omega
        exact congrArg (new ++ ·)
          (replaceFuel_fuel_irrel f1 f2' _ old new (le_trans hlen h1)
            (le_trans hlen h2))
      · exact congrArg (c :: ·) (replaceFuel_fuel_irrel f1 f2' cs old new h1 h2)

theorem listReplace_nil (old new : List Char) : listReplace [] old new = [] := by
  unfold listReplace
  split <;> rfl

theorem listReplace_cons_match {old : List Char} (c : Char) (cs new : List Char)
    (ho : old ≠ []) (hp : old.isPrefixOf (c :: cs) = true) :
    listReplace (c :: cs) old new
      = new ++ listReplace (List.drop (old.length - 1) cs) old new := by
  unfold listReplace
  rw [if_neg ho, if_neg ho]
  simp only [List.length_cons, replaceFuel, hp, if_true]
  exact congrArg (new ++ ·)
    (replaceFuel_fuel_irrel cs.length (List.drop (old.length - 1) cs).length
      _ old new (by rw [List.length_drop]; omega) (le_refl _))

theorem listReplace_cons_nomatch {old : List Char} (c : Char) (cs new : List Char)
    (ho : old ≠ []) (hp : old.isPrefixOf (c :: cs) = false) :
    listReplace (c :: cs) old new = c :: listReplace cs old new := by
  unfold listReplace
  rw [if_neg ho, if_neg ho]
  simp only [List.length_cons, replaceFuel, hp]
  simp

theorem listReplace_all_of_pred (Q : Char → Bool) (old new : List Char)
    (ho : old ≠ []) (hlast : ∀ lc, old.getLast? = some lc → Q lc = false) :
    ∀ s, (∀ c ∈ s, Q c = true) → listReplace s old new = s
  | [], _ => listReplace_nil old new
  | c :: cs, hall => by
    have hnp : old.isPrefixOf (c :: cs) = false := by
      cases hb : old.isPrefixOf (c :: cs) with
      | false => rfl
      | true =>
        exfalso
        have hpre2 : List.IsPrefix old (c :: cs) :=
          List.isPrefixOf_iff_prefix.mp hb
        obtain ⟨lc, hlc⟩ : ∃ lc, old.getLast? = some lc := by
          cases old with
          | nil => exact absurd rfl ho
          | cons o os => exact ⟨_, List.getLast?_eq_getLast _ (by simp)⟩
        have hmem : lc ∈ old := by
          obtain ⟨ys, hys⟩ := List.getLast?_eq_some_iff.mp hlc
          rw [hys]
          simp
        have htrue : Q lc = true := hall lc (hpre2.sublist.subset hmem)
        rw [hlast lc hlc] at htrue
        exact Bool.false_ne_true htrue
    rw [listReplace_cons_nomatch c cs new ho hnp]
    exact congrArg (c :: ·)
      (listReplace_all_of_pred Q old new ho hlast cs
        (fun d hd => hall d (List.mem_cons_of_mem c hd)))

theorem listReplace_affix (P Q : Char → Bool) :
    ∀ (pre old suf new : List Char), old ≠ [] →
      (∀ c ∈ pre, P c = true) →
      (∀ hd, old.head? = some hd → P hd = false) →
      (∀ c ∈ suf, Q c = true) →
      (∀ lc, old.getLast? = some lc → Q lc = false) →
      listReplace (pre ++ old ++ suf) old new = pre ++ new ++ suf
  | [], old, suf, new, ho, _, _, hsuf, hlast => by
    cases old with
    | nil => exact absurd rfl ho
    | cons hc ot =>
      simp only [List.nil_append, List.cons_append]
      rw [listReplace_cons_match hc (ot ++ suf) new (by simp)
        ( List.isPrefixOf_iff_prefix.mpr
          (by rw [← List.cons_append]; exact List.prefix_append _ _))]
      have hd : List.drop ((hc :: ot).length - 1) (ot ++ suf) = suf := by
        simp [List.drop_left]
      rw [hd, listReplace_all_of_pred Q (hc :: ot) new (by simp) hlast suf hsuf]
  | p :: pre, old, suf, new, ho, hpre, hhead, hsuf, hlast => by
    have hPp : P p = true := hpre p (List.mem_cons_self _ _)
    have hnp : old.isPrefixOf (p :: (pre ++ old ++ suf)) = false := by
      cases hb : old.isPrefixOf (p :: (pre ++ old ++ suf)) with
      | false => rfl
      | true =>
        exfalso
        have hpre2 : List.IsPrefix old (p :: (pre ++ old ++ suf)) :=
          List.isPrefixOf_iff_prefix.mp hb
        cases old with
        | nil => exact ho rfl
        | cons o os =>
          obtain ⟨t, ht⟩ := hpre2
          have hop : o = p := by
            have := congrArg List.head? ht
            simpa using this
          have hfalse := hhead o (by simp)
          rw [hop, hPp] at hfalse
          exact Bool.false_ne_true hfalse.symm
    rw [show (p :: pre) ++ old ++ suf = p :: (pre ++ old ++ suf) by simp]
    rw [listReplace_cons_nomatch p (pre ++ old ++ suf) new ho hnp]
    rw [listReplace_affix P Q pre old suf new ho
      (fun c hc => hpre c (List.mem_cons_of_mem p hc)) hhead hsuf hlast]
    simp

theorem dropWhile_head_false (p : Char → Bool) :
    ∀ (l : List Char) (c : Char) (cs : List Char),
      List.dropWhile p l = c :: cs → p c = false
  | [], _, _, h => by simp [List.dropWhile] at h
  | x :: xs, c, cs, h => by
    rw [List.dropWhile_cons] at h
    by_cases hp : p x = true
    · rw [if_pos hp] at h
      exact dropWhile_head_false p xs c cs h
    · rw [if_neg hp] at h
      cases h
      simpa using hp

theorem dropWhile_dropWhile_of_imp (p q : Char → Bool)
    (himp : ∀ c, p c = true → q c = true) :
    ∀ (l : List Char), List.dropWhile q (List.dropWhile p l) = List.dropWhile q l
  | [] => rfl
  | c :: cs => by
    rw [List.dropWhile_cons, List.dropWhile_cons]
    by_cases hp : p c = true
    · rw [if_pos hp, if_pos (himp c hp), dropWhile_dropWhile_of_imp p q himp cs]
    · rw [if_neg hp, List.dropWhile_cons]

theorem pyRStrip_append_ws (s : List Char) :
    pyRStrip s ++ (s.reverse.takeWhile isPySpace).reverse = s := by
  unfold pyRStrip
  rw [← List.reverse_append, List.takeWhile_append_dropWhile, List.reverse_reverse]

theorem pyRStrip_drop_eq (s : List Char) :
    s.drop (pyRStrip s).length = (s.reverse.takeWhile isPySpace).reverse := by
  have hdl := List.drop_left (pyRStrip s) (s.reverse.takeWhile isPySpace).reverse
  rw [pyRStrip_append_ws s] at hdl
  exact hdl

theorem pyRStrip_drop_ws (s : List Char) :
    ∀ c ∈ s.drop (pyRStrip s).length, isPySpace c = true := by
  intro c hc
  rw [pyRStrip_drop_eq s] at hc
  exact List.mem_takeWhile_imp (List.mem_reverse.mp hc)

theorem pyRStrip_getLast_not_ws (s : List Char) :
    ∀ lc, (pyRStrip s).getLast? = some lc → isPySpace lc = false := by
  intro lc h
  unfold pyRStrip at h
  rw [List.getLast?_reverse] at h
  cases hx : s.reverse.dropWhile isPySpace with
  | nil =>
    rw [hx] at h
    simp at h
  | cons d ds =>
    rw [hx] at h
    simp only [List.head?_cons, Option.some.injEq] at h
    subst h
    exact dropWhile_head_false isPySpace s.reverse d ds hx

theorem strippedTextOf_eq (text : List Char) :
    strippedTextOf text = pyRStrip (text.dropWhile (fun c => c = '\n')) := by
  unfold strippedTextOf stripNl pyRStrip
  rw [List.reverse_reverse]
  rw [dropWhile_dropWhile_of_imp _ isPySpace
    (fun c hc => by
      have : c = '\n' := by simpa using hc
      simp [isPySpace, this])]

theorem listReplace_decomp (s pre old suf new : List Char) (P Q : Char → Bool)
    (hs : s = pre ++ old ++ suf) (ho : old ≠ [])
    (hpre : ∀ c ∈ pre, P c = true)
    (hhead : ∀ hd, old.head? = some hd → P hd = false)
    (hsuf : ∀ c ∈ suf, Q c = true)
    (hlast : ∀ lc, old.getLast? = some lc → Q lc = false) :
    listReplace s old new = pre ++ new ++ suf := by
  subst hs
  exact listReplace_affix P Q pre old suf new ho hpre hhead hsuf hlast

theorem unique_occ_decomp (s pre old suf : List Char) (P Q : Char → Bool)
    (hs : s = pre ++ old ++ suf) (ho : old ≠ [])
    (hpre : ∀ c ∈ pre, P c = true)
    (hhead : ∀ hd, old.head? = some hd → P hd = false)
    (hsuf : ∀ c ∈ suf, Q c = true)
    (hlast : ∀ lc, old.getLast? = some lc → Q lc = false) :
    ∃! i : Nat, old.isPrefixOf (s.drop i) = true := by
  subst hs
  refine ⟨pre.length, ?_, ?_⟩
  · show old.isPrefixOf ((pre ++ old ++ suf).drop pre.length) = true
    have hdl : (pre ++ old ++ suf).drop pre.length = old ++ suf := by
      rw [List.append_assoc]
      exact List.drop_left _ _
    rw [hdl]
    exact List.isPrefixOf_iff_prefix.mpr ( List.prefix_append _ _)
  · intro j hj
    have hpj : List.IsPrefix old ((pre ++ old ++ suf).drop j) :=
      List.isPrefixOf_iff_prefix.mp hj
    rcases lt_trichotomy j pre.length with hlt | heq | hgt
    · exfalso
      have hdrop : (pre ++ old ++ suf).drop j = pre.drop j ++ (old ++ suf) := by
        rw [List.append_assoc]
        exact List.drop_append_of_le_length (le_of_lt hlt)
      cases old with
      | nil => exact ho rfl
      | cons o os =>
        obtain ⟨t, ht⟩ := hpj
        cases hpd : pre.drop j with
        | nil =>
          have := List.drop_eq_nil_iff.mp hpd
          omega
        | cons d ds =>
          rw [hdrop, hpd] at ht
          have hod : o = d := by
            have := congrArg List.head? ht
            simpa using this
          have hdmem : d ∈ pre :=
            List.drop_subset j pre (by rw [hpd]; exact List.mem_cons_self _ _)
          have hPd : P d = true := hpre d hdmem
          have hPo : P o = false := hhead o (by simp)
          rw [hod, hPd] at hPo
          exact Bool.false_ne_true hPo.symm
    · exact heq
    · exfalso
      obtain ⟨k, hk⟩ : ∃ k, j = pre.length + k := ⟨j - pre.length, by omega⟩
      have hkpos : 1 ≤ k := by omega
      have hdrop : (pre ++ old ++ suf).drop j = (old ++ suf).drop k := by
        rw [List.append_assoc, hk]
        exact List.drop_append k
      rw [hdrop] at hpj
      have hlc := List.getLast?_eq_getLast old ho
      have hQlc : Q (old.getLast ho) = false := hlast _ hlc
      have hlcmem : old.getLast ho ∈ old := List.getLast_mem ho
      by_cases hko : k ≤ old.length
      · have hd2 : (old ++ suf).drop k = old.drop k ++ suf :=
          List.drop_append_of_le_length hko
        rw [hd2] at hpj
        have hlen : (old.drop k).length ≤ old.length := by
          rw [List.length_drop]
          omega
        have hpref_a : List.IsPrefix (old.drop k) old :=
          List.prefix_of_prefix_length_le ( List.prefix_append _ _) hpj hlen
        obtain ⟨t2, ht2⟩ := hpref_a
        have ht2ne : t2 ≠ [] := by
          intro hnil
          subst hnil
          have := congrArg List.length ht2
          simp [List.length_drop] at this
          omega
        have hpt2 : List.IsPrefix t2 suf := by
          obtain ⟨u, hu⟩ := hpj
          have hu2 : (old.drop k ++ t2) ++ u = old.drop k ++ suf := by
            rw [ht2]
            exact hu
          rw [List.append_assoc] at hu2
          exact ⟨u, List.append_cancel_left hu2⟩
        have hgl : old.getLast? = t2.getLast? := by
          rw [← ht2]
          exact List.getLast?_append_of_ne_nil _ ht2ne
        have hlct2 : old.getLast ho ∈ t2 := by
          have h1 : t2.getLast? = some (old.getLast ho) := by
            rw [← hgl]
            exact hlc
          obtain ⟨ys, hys⟩ := List.getLast?_eq_some_iff.mp h1
          rw [hys]
          simp
        have htrue : Q (old.getLast ho) = true :=
          hsuf _ (hpt2.sublist.subset hlct2)
        rw [hQlc] at htrue
        exact Bool.false_ne_true htrue
      · obtain ⟨k2, hk2⟩ : ∃ k2, k = old.length + k2 := ⟨k - old.length, by omega⟩
        have hd2 : (old ++ suf).drop k = suf.drop k2 := by
          rw [hk2]
          exact List.drop_append k2
        rw [hd2] at hpj
        have htrue : Q (old.getLast ho) = true :=
          hsuf _ (List.drop_subset _ _ (hpj.sublist.subset hlcmem))
        rw [hQlc] at htrue
        exact Bool.false_ne_true htrue

theorem core_decomp (text : List Char) (h : pyStrip text ≠ []) :
    strippedTextOf text ≠ [] ∧
    text = text.takeWhile (fun c => c = '\n') ++ strippedTextOf text
      ++ (text.dropWhile (fun c => c = '\n')).drop (strippedTextOf text).length ∧
    (∀ c ∈ text.takeWhile (fun c => c = '\n'), decide (c = '\n') = true) ∧
    (∀ hd, (strippedTextOf text).head? = some hd → decide (hd = '\n') = false) ∧
    (∀ c ∈ (text.dropWhile (fun c => c = '\n')).drop (strippedTextOf text).length,
      isPySpace c = true) ∧
    (∀ lc, (strippedTextOf text).getLast? = some lc → isPySpace lc = false) := by
  have hST := strippedTextOf_eq text
  have hrest : text.dropWhile (fun c => c = '\n')
      = strippedTextOf text
        ++ (text.dropWhile (fun c => c = '\n')).drop (strippedTextOf text).length := by
    rw [hST, pyRStrip_drop_eq]
    exact (pyRStrip_append_ws _).symm
  have htext : text = text.takeWhile (fun c => c = '\n') ++ strippedTextOf text
      ++ (text.dropWhile (fun c => c = '\n')).drop (strippedTextOf text).length := by
    rw [List.append_assoc, ← hrest]
    exact (List.takeWhile_append_dropWhile _ _).symm
  have hnl : ∀ c ∈ text.takeWhile (fun c => c = '\n'), decide (c = '\n') = true := by
    intro c hc
    exact @List.mem_takeWhile_imp Char (fun d => decide (d = '\n')) text c hc
  have hsufws : ∀ c ∈ (text.dropWhile (fun c => c = '\n')).drop
      (strippedTextOf text).length, isPySpace c = true := by
    intro c hc
    rw [hST] at hc
    exact pyRStrip_drop_ws _ c hc
  have hlast : ∀ lc, (strippedTextOf text).getLast? = some lc →
      isPySpace lc = false := by
    rw [hST]
    exact pyRStrip_getLast_not_ws _
  have hhead : ∀ hd, (strippedTextOf text).head? = some hd →
      decide (hd = '\n') = false := by
    intro hd hh
    cases hcor : strippedTextOf text with
    | nil =>
      rw [hcor] at hh
      simp at hh
    | cons a as =>
      rw [hcor] at hh
      simp only [List.head?_cons, Option.some.injEq] at hh
      subst hh
      have hx : text.dropWhile (fun c => c = '\n')
          = a :: (as ++ (text.dropWhile (fun c => c = '\n')).drop
              (strippedTextOf text).length) := by
        conv_lhs => rw [hrest, hcor]
        rw [List.cons_append, hcor]
      exact dropWhile_head_false _ text a _ hx
  have hne : strippedTextOf text ≠ [] := by
    obtain ⟨c, hcx, hcws⟩ := exists_nonws text h
    rw [htext] at hcx
    rcases List.mem_append.mp hcx with h1 | h1
    · rcases List.mem_append.mp h1 with h2 | h2
      · have hc' : c = '\n' := by simpa using hnl c h2
        exact absurd (by simp [isPySpace, hc']) hcws
      · exact List.ne_nil_of_mem h2
    · exact absurd (hsufws c h1) hcws
  exact ⟨hne, htext, hnl, hhead, hsufws, hlast⟩

/-- C4: for every text containing at least one non-whitespace character
and every map, the replace-based fallback of `translate_text` agrees with
the spec's direct slice-and-concatenate restatement
(`translate_text_sliced`), and the stripped core occurs at exactly one
position inside the text. -/
theorem translate_text_slice_equiv (text : List Char) (translation_map : TransMap)
    (h : pyStrip text ≠ []) :
    translate_text text translation_map
        = translate_text_sliced text translation_map ∧
    ∃! i : Nat, (strippedTextOf text).isPrefixOf (text.drop i) = true := by
  obtain ⟨hne, htext, hnl, hhead, hsufws, hlast⟩ := core_decomp text h
  have hST := strippedTextOf_eq text
  refine ⟨?_, unique_occ_decomp text _ _ _ (fun c => decide (c = '\n')) isPySpace
    htext hne hnl hhead hsufws hlast⟩
  have hph_ne : PLACEHOLDER ≠ [] := by decide
  have hph_head : ∀ hd, PLACEHOLDER.head? = some hd → decide (hd = '\n') = false := by
    intro hd hh
    have he : PLACEHOLDER.head? = some '_' := by decide
    rw [he] at hh
    have h2 : '_' = hd := by simpa using hh
    subst h2
    decide
  have hph_last : ∀ lc, PLACEHOLDER.getLast? = some lc → isPySpace lc = false := by
    intro lc hh
    have he : PLACEHOLDER.getLast? = some '_' := by decide
    rw [he] at hh
    have h2 : '_' = lc := by simpa using hh
    subst h2
    decide
  have hrep1 : listReplace text (strippedTextOf text) PLACEHOLDER
      = text.takeWhile (fun c => c = '\n') ++ PLACEHOLDER
        ++ (text.dropWhile (fun c => c = '\n')).drop (strippedTextOf text).length :=
    listReplace_decomp text _ _ _ PLACEHOLDER (fun c => decide (c = '\n')) isPySpace
      htext hne hnl hhead hsufws hlast
  have hrep2 : ∀ tv, listReplace
      (text.takeWhile (fun c => c = '\n') ++ PLACEHOLDER
        ++ (text.dropWhile (fun c => c = '\n')).drop (strippedTextOf text).length)
      PLACEHOLDER tv
      = text.takeWhile (fun c => c = '\n') ++ tv
        ++ (text.dropWhile (fun c => c = '\n')).drop (strippedTextOf text).length :=
    fun tv => listReplace_decomp _ _ _ _ tv (fun c => decide (c = '\n')) isPySpace
      rfl hph_ne hnl hph_head hsufws hph_last
  unfold translate_text translate_text_sliced
  rw [if_neg h, if_neg h]
  cases hf : dictFind? translation_map text with
  | some v => rfl
  | none =>
    show (match dictFind? translation_map (dedent (strippedTextOf text)) with
      | some translated =>
        listReplace (listReplace text (strippedTextOf text) PLACEHOLDER) PLACEHOLDER
          (pyIndent translated (extract_common_indentation (strippedTextOf text)))
      | none => text)
      = (match dictFind? translation_map
          (dedent (pyRStrip (text.dropWhile (fun c => c = '\n')))) with
      | some translated =>
        text.takeWhile (fun c => c = '\n')
          ++ pyIndent translated (extract_common_indentation
              (pyRStrip (text.dropWhile (fun c => c = '\n'))))
          ++ (text.dropWhile (fun c => c = '\n')).drop
              (pyRStrip (text.dropWhile (fun c => c = '\n'))).length
      | none => text)
    rw [← hST]
    cases hd : dictFind? translation_map (dedent (strippedTextOf text)) with
    | none => rfl
    | some tv =>
      rw [hrep1]
      exact hrep2 (pyIndent tv (extract_common_indentation (strippedTextOf text)))

theorem translate_text_slice_equiv_witness :
    translate_text "\n  ab \n".data [("ab".data, "cd".data)]
        = translate_text_sliced "\n  ab \n".data [("ab".data, "cd".data)] ∧
    ∃! i : Nat, (strippedTextOf "\n  ab \n".data).isPrefixOf
      (("\n  ab \n".data).drop i) = true :=
  translate_text_slice_equiv "\n  ab \n".data [("ab".data, "cd".data)] (by decide)
